import Mathlib

/-!
Verification development for the genome decoding engine of `gene.jax`
(`src/gene/encoding.py`).

The decoders operate on flat genome vectors, modelled here as `List α`
over an arbitrary scalar type `α` (the decoders only slice and copy genome
values; arithmetic enters only through the distance function, which is a
parameter).  JAX arrays become Lean lists, `jnp.split` becomes `take`/`drop`
or an equal-chunks splitter, and `lax.dynamic_slice` becomes a clamped
slice returning `Option` (JAX raises when a slice size exceeds the operand
length, and clamps the start index otherwise).  Fallible operations return
`Option`; a Python `assert` failure or a JAX slicing error is `none`.

The module `gene/distances.py` (the `Vectorized_distances` table) is not
part of the sources; its behaviour is modelled from the spec where needed.
-/

namespace GeneJax

/-- A decoded dense layer: the `kernel` weight matrix (list of rows) and
the `bias` vector, mirroring the `{"kernel": ..., "bias": ...}` records
built by both decoders. -/
structure DenseLayer (α : Type) where
  kernel : List (List α)
  bias : List α
deriving DecidableEq, Repr

/-- `lax.dynamic_slice` on a 1-d array: fails when the requested size
exceeds the array length, otherwise clamps the start index so the slice
fits, and returns exactly `size` elements. -/
def dynamicSlice {α : Type} (xs : List α) (start size : ℕ) : Option (List α) :=
  if size ≤ xs.length then
    some ((xs.drop (min start (xs.length - size))).take size)
  else
    none

/-- `jnp.split(xs, n)` with an integer section count: fails unless `n` is
positive and divides the length, otherwise returns the `n` equal
contiguous sections. -/
def splitChunks {α : Type} (xs : List α) (n : ℕ) : Option (List (List α)) :=
  if 0 < n ∧ xs.length % n = 0 then
    some ((List.range n).map fun j => (xs.drop (j * (xs.length / n))).take (xs.length / n))
  else
    none

/-- `jnp.reshape(xs, (rows, cols))` in row-major order (the caller
guarantees `xs.length = rows * cols`, as `direct_decoding` does via the
preceding `dynamic_slice`). -/
def reshape2 {α : Type} (xs : List α) (rows cols : ℕ) : List (List α) :=
  (List.range rows).map fun r => (xs.drop (r * cols)).take cols

/-- Sequentially run a fallible layer builder over a list of transition
indices, collecting the results in order; the first failure aborts the
whole decode (a raised exception discards the partially built dict). -/
def buildLayers {β : Type} (f : ℕ → Option β) : List ℕ → Option (List β)
  | [] => some []
  | i :: is => do
    let b ← f i
    let bs ← buildLayers f is
    pure (b :: bs)

/-- `gene_enc_genome_size`: `l_dims[0] * d + sum(l_dims[1:]) * (d + 1)`.
(Python would raise `IndexError` on an empty `layer_dimensions`; all uses
here have a nonempty topology, so `headD 0` is never the degenerate case.) -/
def gene_enc_genome_size (layer_dims : List ℕ) (d : ℕ) : ℕ :=
  layer_dims.headD 0 * d + layer_dims.tail.sum * (d + 1)

/-- `direct_enc_genome_size`:
`sum(in_f * out_f + out_f for in_f, out_f in zip(layer_dims[:-1], layer_dims[1:]))`. -/
def direct_enc_genome_size (layer_dims : List ℕ) : ℕ :=
  (List.zipWith (fun inF outF => inF * outF + outF) layer_dims.dropLast layer_dims.tail).sum

/-- Modelled from the spec: the repository's `gene/distances.py`
(`Vectorized_distances`) is not among the sources.  Per the spec, the
selected distance function is evaluated on every (source, target) pair of
the Cartesian product of the two index ranges, over the per-neuron
position table, and assembled into a `layer_in × layer_out` matrix with
row = source and column = target.  (JAX gathers clamp out-of-range
indices; all indices used by the decoder are in range.) -/
def vectorizedDistances {α : Type} (dist : List α → List α → α)
    (positions : List (List α)) (srcIdx targetIdx : List ℕ) : List (List α) :=
  srcIdx.map fun s => targetIdx.map fun t => dist (positions.getD s []) (positions.getD t [])

/-- Modelled from the spec: the `L2` distance in the missing
`gene/distances.py` is the Euclidean norm of the difference of the two
position vectors. -/
noncomputable def L2 (a b : List ℝ) : ℝ :=
  Real.sqrt (((List.zip a b).map fun p => (p.1 - p.2) ^ 2).sum)

/-- Loop body of `gene_decoding` for transition `i` (the pair
`(layer_in, layer_out) = (layer_dims[i], layer_dims[i+1])`): rebuild the
position table from the weight block, derive the weight matrix through the
distance function over the global source/target index ranges, and slice
the biases from the bias block. -/
def geneLayer {α : Type} (dist : List α → List α → α)
    (genome_w genome_b : List α) (layer_dims : List ℕ) (i : ℕ) :
    Option (String × DenseLayer α) := do
  let genome_w_positions ← splitChunks genome_w layer_dims.sum
  let biases ← dynamicSlice genome_b ((layer_dims.tail.take i).sum) ((layer_dims.tail).getD i 0)
  pure ("Dense_" ++ toString i,
    ⟨vectorizedDistances dist genome_w_positions
        ((List.range ((layer_dims.dropLast).getD i 0)).map fun k => (layer_dims.take i).sum + k)
        ((List.range ((layer_dims.tail).getD i 0)).map fun k =>
          (layer_dims.take i).sum + (layer_dims.dropLast).getD i 0 + k),
      biases⟩)

/-- `gene_decoding`: assert the genome length, split the genome at
`sum(layer_dims) * d` into a position block and a bias block, then build
one dense layer per consecutive layer pair. -/
def gene_decoding {α : Type} (dist : List α → List α → α)
    (genome : List α) (layer_dims : List ℕ) (d : ℕ) :
    Option (List (String × DenseLayer α)) :=
  if genome.length = gene_enc_genome_size layer_dims d then
    let genome_w := genome.take (layer_dims.sum * d)
    let genome_b := genome.drop (layer_dims.sum * d)
    buildLayers (geneLayer dist genome_w genome_b layer_dims)
      (List.range (List.zip layer_dims.dropLast layer_dims.tail).length)
  else
    none

/-- Loop body of `direct_decoding` for transition `i`: the running
`offset` accumulated by the Python loop equals the sum of the previous
sections' lengths. -/
def directLayer {α : Type} (genome_w genome_b : List α) (layer_dims : List ℕ) (i : ℕ) :
    Option (String × DenseLayer α) := do
  let weights ← dynamicSlice genome_w
    ((List.zipWith (fun a b => a * b) layer_dims.dropLast layer_dims.tail).take i).sum
    ((layer_dims.dropLast).getD i 0 * (layer_dims.tail).getD i 0)
  let biases ← dynamicSlice genome_b ((layer_dims.tail.take i).sum) ((layer_dims.tail).getD i 0)
  pure ("Dense_" ++ toString i,
    ⟨reshape2 weights ((layer_dims.dropLast).getD i 0) ((layer_dims.tail).getD i 0), biases⟩)

/-- `direct_decoding`: split the genome at the total weight count into a
weight block and a bias block (no length check is performed), then build
one dense layer per consecutive layer pair. -/
def direct_decoding {α : Type} (genome : List α) (layer_dims : List ℕ) :
    Option (List (String × DenseLayer α)) :=
  let wsize := (List.zipWith (fun a b => a * b) layer_dims.dropLast layer_dims.tail).sum
  let genome_w := genome.take wsize
  let genome_b := genome.drop wsize
  buildLayers (directLayer genome_w genome_b layer_dims)
    (List.range (List.zip layer_dims.dropLast layer_dims.tail).length)

/-! ### Basic lemmas about the slicing primitives -/

theorem buildLayers_eq_map {β : Type} (f : ℕ → Option β) (g : ℕ → β) :
    ∀ l : List ℕ, (∀ i ∈ l, f i = some (g i)) → buildLayers f l = some (l.map g)
  | [], _ => rfl
  | i :: is, h => by
    have hi := h i (List.mem_cons_self i is)
    have hrest := buildLayers_eq_map f g is fun j hj => h j (List.mem_cons_of_mem i hj)
    simp [buildLayers, hi, hrest]

theorem dynamicSlice_eq_of_le {α : Type} {xs : List α} {start size : ℕ}
    (h : start + size ≤ xs.length) :
    dynamicSlice xs start size = some ((xs.drop start).take size) := by
  have hs : size ≤ xs.length := le_trans (Nat.le_add_left _ _) h
  have hmin : min start (xs.length - size) = start :=
    Nat.min_eq_left (Nat.le_sub_of_add_le h)
  simp [dynamicSlice, hs, hmin]

theorem length_take_drop {α : Type} {xs : List α} {start size : ℕ}
    (h : start + size ≤ xs.length) :
    ((xs.drop start).take size).length = size := by
  simp only [List.length_take, List.length_drop]
  omega

theorem splitChunks_eq {α : Type} {xs : List α} {n d : ℕ} (hn : 0 < n)
    (hlen : xs.length = n * d) :
    splitChunks xs n = some ((List.range n).map fun j => (xs.drop (j * d)).take d) := by
  have h1 : xs.length % n = 0 := by rw [hlen]; exact Nat.mul_mod_right n d
  have h2 : xs.length / n = d := by rw [hlen]; exact Nat.mul_div_cancel_left d hn
  simp [splitChunks, hn, h1, h2]

/-! ### Index and prefix-sum bookkeeping over a topology -/

theorem getD_range_map {β : Type} (f : ℕ → β) {n j : ℕ} (h : j < n) (b : β) :
    ((List.range n).map f).getD j b = f j := by
  rw [List.getD_eq_getElem _ _ (by simpa using h)]
  simp

theorem getD_dropLast {l : List ℕ} {i : ℕ} (h : i < l.length - 1) :
    l.dropLast.getD i 0 = l.getD i 0 := by
  have h1 : i < l.dropLast.length := by simpa using h
  have h2 : i < l.length := by omega
  rw [List.getD_eq_getElem _ _ h1, List.getD_eq_getElem _ _ h2]
  exact List.getElem_dropLast l i h1

theorem getD_tail {l : List ℕ} {i : ℕ} (h : i < l.length - 1) :
    l.tail.getD i 0 = l.getD (i + 1) 0 := by
  have h1 : i < l.tail.length := by simpa using h
  have h2 : i + 1 < l.length := by omega
  rw [List.getD_eq_getElem _ _ h1, List.getD_eq_getElem _ _ h2]
  exact List.getElem_tail l i h1

theorem sum_take_succ_getD {l : List ℕ} {i : ℕ} (h : i < l.length) :
    (l.take (i + 1)).sum = (l.take i).sum + l.getD i 0 := by
  rw [List.sum_take_succ l i h, List.getD_eq_getElem _ _ h]

theorem sum_take_le_sum (l : List ℕ) (k : ℕ) : (l.take k).sum ≤ l.sum :=
  le_trans (Nat.le_add_right _ _) (le_of_eq (List.sum_take_add_sum_drop l k))

theorem sum_take_eq_finset_sum {l : List ℕ} :
    ∀ {i : ℕ}, i ≤ l.length → (l.take i).sum = ∑ j ∈ Finset.range i, l.getD j 0 := by
  intro i
  induction i with
  | zero => simp
  | succ k ih =>
    intro h
    rw [sum_take_succ_getD (by omega), Finset.sum_range_succ, ih (by omega)]

theorem sum_eq_headD_add_tail (l : List ℕ) : l.sum = l.headD 0 + l.tail.sum := by
  cases l <;> simp

theorem sum_zipWith_add (f g : ℕ → ℕ → ℕ) :
    ∀ (l1 l2 : List ℕ),
      (List.zipWith (fun a b => f a b + g a b) l1 l2).sum
        = (List.zipWith f l1 l2).sum + (List.zipWith g l1 l2).sum
  | [], _ => by simp
  | _ :: _, [] => by simp
  | a :: l1, b :: l2 => by
    simp only [List.zipWith_cons_cons, List.sum_cons, sum_zipWith_add f g l1 l2]
    omega

theorem zipWith_right_eq_take {α β : Type} :
    ∀ (l1 : List α) (l2 : List β), List.zipWith (fun _ b => b) l1 l2 = l2.take l1.length
  | [], _ => by simp
  | _ :: _, [] => by simp
  | _ :: l1, b :: l2 => by
    simp only [List.zipWith_cons_cons, List.length_cons, List.take_succ_cons]
    rw [zipWith_right_eq_take l1 l2]

/-- The weight-section length at which `direct_decoding` splits the genome:
`sum(layer_dims[i] * layer_dims[i + 1] for i in range(len(layer_dims) - 1))`. -/
def directWeightCount (layer_dims : List ℕ) : ℕ :=
  (List.zipWith (fun a b => a * b) layer_dims.dropLast layer_dims.tail).sum

theorem direct_size_eq (l : List ℕ) :
    direct_enc_genome_size l = directWeightCount l + l.tail.sum := by
  unfold direct_enc_genome_size directWeightCount
  rw [sum_zipWith_add (fun a b => a * b) (fun _ b => b), zipWith_right_eq_take,
    List.length_dropLast, List.take_of_length_le (by simp)]

theorem gene_size_eq (l : List ℕ) (d : ℕ) :
    gene_enc_genome_size l d = l.sum * d + l.tail.sum := by
  unfold gene_enc_genome_size
  rw [sum_eq_headD_add_tail l]
  ring

/-! ### Closed forms of the decoded layers -/

/-- The position window of global neuron `j` inside the position block:
`d` contiguous genes starting at `j * d`. -/
def genePosition {α : Type} (genome_w : List α) (d j : ℕ) : List α :=
  (genome_w.drop (j * d)).take d

/-- Closed form of the layer built by `gene_decoding` for transition `i`,
expressed directly as slices of the input genome. -/
def geneEntry {α : Type} (dist : List α → List α → α) (genome : List α)
    (layer_dims : List ℕ) (d i : ℕ) : String × DenseLayer α :=
  ("Dense_" ++ toString i,
   ⟨(List.range (layer_dims.getD i 0)).map fun s =>
      (List.range (layer_dims.getD (i + 1) 0)).map fun t =>
        dist
          (genePosition (genome.take (layer_dims.sum * d)) d ((layer_dims.take i).sum + s))
          (genePosition (genome.take (layer_dims.sum * d)) d
            ((layer_dims.take i).sum + layer_dims.getD i 0 + t)),
    ((genome.drop (layer_dims.sum * d)).drop ((layer_dims.tail.take i).sum)).take
      (layer_dims.getD (i + 1) 0)⟩)

/-- Closed form of the layer built by `direct_decoding` for transition `i`. -/
def directEntry {α : Type} (genome : List α) (layer_dims : List ℕ) (i : ℕ) :
    String × DenseLayer α :=
  ("Dense_" ++ toString i,
   ⟨reshape2
      (((genome.take (directWeightCount layer_dims)).drop
          ((List.zipWith (fun a b => a * b) layer_dims.dropLast layer_dims.tail).take i).sum).take
        (layer_dims.getD i 0 * layer_dims.getD (i + 1) 0))
      (layer_dims.getD i 0) (layer_dims.getD (i + 1) 0),
    ((genome.drop (directWeightCount layer_dims)).drop ((layer_dims.tail.take i).sum)).take
      (layer_dims.getD (i + 1) 0)⟩)

theorem zip_dropLast_tail_length (l : List ℕ) :
    (List.zip l.dropLast l.tail).length = l.length - 1 := by
  simp [List.length_zip]

/-- Characterization of `gene_decoding` on a correctly sized genome over a
topology with at least one neuron: it succeeds and returns the closed-form
layer for every transition. -/
theorem gene_decoding_eq_map {α : Type} (dist : List α → List α → α)
    (genome : List α) (layer_dims : List ℕ) (d : ℕ)
    (hsum : 0 < layer_dims.sum)
    (hlen : genome.length = gene_enc_genome_size layer_dims d) :
    gene_decoding dist genome layer_dims d
      = some ((List.range (layer_dims.length - 1)).map (geneEntry dist genome layer_dims d)) := by
  have hlen' : genome.length = layer_dims.sum * d + layer_dims.tail.sum := by
    rw [hlen, gene_size_eq]
  have hwlen : (genome.take (layer_dims.sum * d)).length = layer_dims.sum * d := by
    rw [List.length_take]
    omega
  have hblen : (genome.drop (layer_dims.sum * d)).length = layer_dims.tail.sum := by
    rw [List.length_drop]
    omega
  unfold gene_decoding
  rw [if_pos hlen, zip_dropLast_tail_length]
  apply buildLayers_eq_map
  intro i hi
  have hi' : i < layer_dims.length - 1 := List.mem_range.mp hi
  have htl : i < layer_dims.tail.length := by simpa using hi'
  unfold geneLayer
  rw [splitChunks_eq hsum hwlen]
  have hbias : (layer_dims.tail.take i).sum + layer_dims.tail.getD i 0
      ≤ (genome.drop (layer_dims.sum * d)).length := by
    rw [hblen, ← sum_take_succ_getD htl]
    exact sum_take_le_sum _ _
  rw [dynamicSlice_eq_of_le hbias]
  simp only [Option.pure_def, Option.bind_eq_bind, Option.some_bind]
  congr 1
  unfold geneEntry
  rw [getD_dropLast hi', getD_tail hi', Prod.mk.injEq, DenseLayer.mk.injEq]
  refine ⟨rfl, ?_, rfl⟩
  -- the weight matrices coincide entry by entry
  have hoff1 : (layer_dims.take i).sum + layer_dims.getD i 0 ≤ layer_dims.sum := by
    rw [← sum_take_succ_getD (by omega : i < layer_dims.length)]
    exact sum_take_le_sum _ _
  have hoff2 : (layer_dims.take i).sum + layer_dims.getD i 0 + layer_dims.getD (i + 1) 0
      ≤ layer_dims.sum := by
    rw [← sum_take_succ_getD (by omega : i < layer_dims.length),
      ← sum_take_succ_getD (by omega : i + 1 < layer_dims.length)]
    exact sum_take_le_sum _ _
  unfold vectorizedDistances
  rw [List.map_map]
  apply List.map_congr_left
  intro s hs
  have hslt : s < layer_dims.getD i 0 := List.mem_range.mp hs
  simp only [Function.comp_apply]
  rw [List.map_map]
  apply List.map_congr_left
  intro t ht
  have htlt : t < layer_dims.getD (i + 1) 0 := List.mem_range.mp ht
  simp only [Function.comp_apply]
  rw [getD_range_map _ (by omega), getD_range_map _ (by omega)]
  rfl

theorem zipWith_mul_length (l : List ℕ) :
    (List.zipWith (fun a b => a * b) l.dropLast l.tail).length = l.length - 1 := by
  simp [List.length_zipWith]

theorem zipWith_mul_getD {l : List ℕ} {i : ℕ} (h : i < l.length - 1) :
    (List.zipWith (fun a b => a * b) l.dropLast l.tail).getD i 0
      = l.getD i 0 * l.getD (i + 1) 0 := by
  have hz : i < (List.zipWith (fun a b => a * b) l.dropLast l.tail).length := by
    rw [zipWith_mul_length]; exact h
  have h1 : i < l.dropLast.length := by simpa using h
  have h2 : i < l.tail.length := by simpa using h
  rw [List.getD_eq_getElem _ _ hz, List.getElem_zipWith,
    ← getD_dropLast h, ← getD_tail h,
    List.getD_eq_getElem _ _ h1, List.getD_eq_getElem _ _ h2]

/-- Characterization of `direct_decoding` on a genome at least as long as
the direct encoding size: it succeeds (no length check is performed) and
returns the closed-form layer for every transition. -/
theorem direct_decoding_eq_map {α : Type} (genome : List α) (layer_dims : List ℕ)
    (hlen : direct_enc_genome_size layer_dims ≤ genome.length) :
    direct_decoding genome layer_dims
      = some ((List.range (layer_dims.length - 1)).map (directEntry genome layer_dims)) := by
  have hlen' : directWeightCount layer_dims + layer_dims.tail.sum ≤ genome.length := by
    rw [← direct_size_eq]; exact hlen
  have hwc : directWeightCount layer_dims
      = (List.zipWith (fun a b => a * b) layer_dims.dropLast layer_dims.tail).sum := rfl
  have hwlen : (genome.take
      ((List.zipWith (fun a b => a * b) layer_dims.dropLast layer_dims.tail).sum)).length
      = (List.zipWith (fun a b => a * b) layer_dims.dropLast layer_dims.tail).sum := by
    rw [List.length_take]
    omega
  have hblen : layer_dims.tail.sum ≤ (genome.drop
      ((List.zipWith (fun a b => a * b) layer_dims.dropLast layer_dims.tail).sum)).length := by
    rw [List.length_drop]
    omega
  unfold direct_decoding
  rw [zip_dropLast_tail_length]
  apply buildLayers_eq_map
  intro i hi
  have hi' : i < layer_dims.length - 1 := List.mem_range.mp hi
  have htl : i < layer_dims.tail.length := by simpa using hi'
  have hzl : i < (List.zipWith (fun a b => a * b) layer_dims.dropLast layer_dims.tail).length := by
    rw [zipWith_mul_length]; exact hi'
  unfold directLayer
  have hw : ((List.zipWith (fun a b => a * b) layer_dims.dropLast layer_dims.tail).take i).sum
      + layer_dims.dropLast.getD i 0 * layer_dims.tail.getD i 0
      ≤ (genome.take
        ((List.zipWith (fun a b => a * b) layer_dims.dropLast layer_dims.tail).sum)).length := by
    rw [hwlen, getD_dropLast hi', getD_tail hi', ← zipWith_mul_getD hi', ← sum_take_succ_getD hzl]
    exact sum_take_le_sum _ _
  rw [dynamicSlice_eq_of_le hw]
  have hbias : (layer_dims.tail.take i).sum + layer_dims.tail.getD i 0
      ≤ (genome.drop
        ((List.zipWith (fun a b => a * b) layer_dims.dropLast layer_dims.tail).sum)).length := by
    refine le_trans ?_ hblen
    rw [← sum_take_succ_getD htl]
    exact sum_take_le_sum _ _
  rw [dynamicSlice_eq_of_le hbias]
  simp only [Option.pure_def, Option.bind_eq_bind, Option.some_bind]
  congr 1
  unfold directEntry directWeightCount
  rw [getD_dropLast hi', getD_tail hi']

theorem sum_pos_of_nonempty {l : List ℕ} (hne : l ≠ []) (hpos : ∀ n ∈ l, 0 < n) :
    0 < l.sum := by
  cases l with
  | nil => exact absurd rfl hne
  | cons a t =>
    have ha : 0 < a := hpos a (List.mem_cons_self a t)
    simp only [List.sum_cons]
    omega

theorem zipWith_dropLast_tail_getD (f : ℕ → ℕ → ℕ) {l : List ℕ} {i : ℕ}
    (h : i < l.length - 1) :
    (List.zipWith f l.dropLast l.tail).getD i 0 = f (l.getD i 0) (l.getD (i + 1) 0) := by
  have hz : i < (List.zipWith f l.dropLast l.tail).length := by
    simpa [List.length_zipWith] using h
  have h1 : i < l.dropLast.length := by simpa using h
  have h2 : i < l.tail.length := by simpa using h
  rw [List.getD_eq_getElem _ _ hz, List.getElem_zipWith,
    ← getD_dropLast h, ← getD_tail h,
    List.getD_eq_getElem _ _ h1, List.getD_eq_getElem _ _ h2]

theorem sum_zipWith_dropLast_tail (f : ℕ → ℕ → ℕ) (l : List ℕ) :
    (List.zipWith f l.dropLast l.tail).sum
      = ∑ i ∈ Finset.range (l.length - 1), f (l.getD i 0) (l.getD (i + 1) 0) := by
  have hlen : (List.zipWith f l.dropLast l.tail).length = l.length - 1 := by
    simp [List.length_zipWith]
  rw [← List.take_length (List.zipWith f l.dropLast l.tail),
    sum_take_eq_finset_sum (le_refl _), hlen]
  exact Finset.sum_congr rfl fun j hj =>
    zipWith_dropLast_tail_getD f (List.mem_range.mp hj)

theorem tail_take_sum_eq {l : List ℕ} {i : ℕ} (h : i ≤ l.length - 1) :
    (l.tail.take i).sum = ∑ j ∈ Finset.range i, l.getD (j + 1) 0 := by
  rw [sum_take_eq_finset_sum (by simpa using h)]
  exact Finset.sum_congr rfl fun j hj =>
    getD_tail (lt_of_lt_of_le (List.mem_range.mp hj) h)

theorem tail_sum_eq_finset_sum (l : List ℕ) :
    l.tail.sum = ∑ j ∈ Finset.range (l.length - 1), l.getD (j + 1) 0 := by
  rw [← List.take_length l.tail, sum_take_eq_finset_sum (le_refl _), List.length_tail]
  exact Finset.sum_congr rfl fun j hj => getD_tail (List.mem_range.mp hj)

/-! ### Flatten lemmas for the direct-encoding round trip -/

theorem flatten_uniform_length {α : Type} {cols : ℕ} :
    ∀ (xs : List (List α)), (∀ r ∈ xs, r.length = cols) →
      xs.flatten.length = xs.length * cols
  | [], _ => by simp
  | row :: rest, h => by
    have hr := h row (List.mem_cons_self _ _)
    have ih := flatten_uniform_length rest fun r hm => h r (List.mem_cons_of_mem _ hm)
    simp only [List.flatten_cons, List.length_append, List.length_cons, hr, ih]
    ring

theorem reshape2_flatten {α : Type} {cols : ℕ} :
    ∀ (xs : List (List α)), (∀ r ∈ xs, r.length = cols) →
      reshape2 xs.flatten xs.length cols = xs
  | [], _ => rfl
  | row :: rest, h => by
    have hr : row.length = cols := h row (List.mem_cons_self _ _)
    have ih := reshape2_flatten rest fun r hm => h r (List.mem_cons_of_mem _ hm)
    unfold reshape2 at ih ⊢
    rw [List.length_cons, List.range_succ_eq_map, List.map_cons, List.map_map]
    congr 1
    · show List.take cols (List.drop (0 * cols) (row :: rest).flatten) = row
      rw [Nat.zero_mul, List.drop_zero, List.flatten_cons, ← hr, List.take_left]
    · refine Eq.trans (List.map_congr_left ?_) ih
      intro r hm
      simp only [Function.comp_apply, Nat.succ_eq_add_one]
      have hadd : (r + 1) * cols = row.length + r * cols := by rw [hr]; ring
      rw [List.flatten_cons, hadd, List.drop_append]

theorem flatten_slice {α : Type} {cs : List (List α)} {i : ℕ} (h : i < cs.length) :
    (cs.flatten.drop (((cs.map List.length).take i).sum)).take (cs.getD i []).length
      = cs.getD i [] := by
  rw [List.getD_eq_getElem _ _ h, List.drop_sum_flatten, List.drop_eq_getElem_cons h,
    List.flatten_cons, List.take_left]

/-! ### Claims -/

/-- Claim C3: for every topology, the direct-encoding genome size equals
the sum over consecutive layer pairs of
`layer_dims[i] * layer_dims[i+1] + layer_dims[i+1]`; in particular, for
topology `[4, 3, 2]` it equals `23`. -/
theorem direct_genome_size_spec :
    (∀ layer_dims : List ℕ,
      direct_enc_genome_size layer_dims
        = ∑ i ∈ Finset.range (layer_dims.length - 1),
            (layer_dims.getD i 0 * layer_dims.getD (i + 1) 0 + layer_dims.getD (i + 1) 0))
    ∧ direct_enc_genome_size [4, 3, 2] = 23 := by
  constructor
  · intro l
    exact sum_zipWith_dropLast_tail (fun a b => a * b + b) l
  · rfl

/-- Claim C4: for every topology of length at least two with positive `d`,
the positional-encoding genome size equals
`layer_dims[0] * d + (Σ layer_dims[1:]) * (d + 1)`, and the decoder's
split point `(Σ layer_dims) * d` cuts a correctly sized genome into a
position block of exactly `(Σ layer_dims) * d` genes and a bias block of
exactly one gene per non-input neuron. -/
theorem gene_genome_size_spec (layer_dims : List ℕ) (d : ℕ) (genome : List ℚ)
    (hL : 2 ≤ layer_dims.length) (hd : 0 < d)
    (hlen : genome.length = gene_enc_genome_size layer_dims d) :
    gene_enc_genome_size layer_dims d
      = layer_dims.getD 0 0 * d
        + (∑ i ∈ Finset.range (layer_dims.length - 1), layer_dims.getD (i + 1) 0) * (d + 1)
    ∧ (genome.take (layer_dims.sum * d)).length = layer_dims.sum * d
    ∧ (genome.drop (layer_dims.sum * d)).length = layer_dims.tail.sum := by
  have hsz : genome.length = layer_dims.sum * d + layer_dims.tail.sum := by
    rw [hlen, gene_size_eq]
  refine ⟨?_, ?_, ?_⟩
  · rw [← tail_sum_eq_finset_sum]
    cases layer_dims with
    | nil => simp at hL
    | cons a t => rfl
  · rw [List.length_take]; omega
  · rw [List.length_drop]; omega

/-- Witness for C4 at topology `[2, 2]`, `d = 1`, a genome of length 6. -/
theorem gene_genome_size_spec_witness :
    2 ≤ ([2, 2] : List ℕ).length ∧ 0 < 1
      ∧ ([0, 5, 10, 15, 1, 2] : List ℚ).length = gene_enc_genome_size [2, 2] 1
      ∧ (gene_enc_genome_size [2, 2] 1
          = [2, 2].getD 0 0 * 1
            + (∑ i ∈ Finset.range (([2, 2] : List ℕ).length - 1), [2, 2].getD (i + 1) 0) * (1 + 1)
        ∧ (([0, 5, 10, 15, 1, 2] : List ℚ).take (([2, 2] : List ℕ).sum * 1)).length
            = ([2, 2] : List ℕ).sum * 1
        ∧ (([0, 5, 10, 15, 1, 2] : List ℚ).drop (([2, 2] : List ℕ).sum * 1)).length
            = ([2, 2] : List ℕ).tail.sum) :=
  ⟨by decide, by decide, by decide,
    gene_genome_size_spec [2, 2] 1 [0, 5, 10, 15, 1, 2] (by decide) (by decide) (by decide)⟩

/-- Claim C9: decoding is deterministic — two invocations of either
decoder on equal genomes, topologies, dimensionalities, and distance
functions produce identical output.  Both decoders are pure functions of
their inputs (the embedding has no hidden state). -/
theorem decode_deterministic {α : Type} (dist dist' : List α → List α → α)
    (genome genome' : List α) (layer_dims layer_dims' : List ℕ) (d d' : ℕ)
    (h1 : dist = dist') (h2 : genome = genome') (h3 : layer_dims = layer_dims')
    (h4 : d = d') :
    gene_decoding dist genome layer_dims d = gene_decoding dist' genome' layer_dims' d'
    ∧ direct_decoding genome layer_dims = direct_decoding genome' layer_dims' := by
  subst h1 h2 h3 h4
  exact ⟨rfl, rfl⟩

/-- Witness for C9 at a concrete invocation. -/
theorem decode_deterministic_witness :
    gene_decoding (fun a b => a.headD 0 + b.headD 0) ([0, 5, 10, 15, 1, 2] : List ℚ) [2, 2] 1
        = gene_decoding (fun a b => a.headD 0 + b.headD 0) ([0, 5, 10, 15, 1, 2] : List ℚ) [2, 2] 1
      ∧ direct_decoding ([0, 5, 10, 15, 1, 2] : List ℚ) [2, 2]
        = direct_decoding ([0, 5, 10, 15, 1, 2] : List ℚ) [2, 2] :=
  decode_deterministic (fun a b => a.headD 0 + b.headD 0) (fun a b => a.headD 0 + b.headD 0)
    [0, 5, 10, 15, 1, 2] [0, 5, 10, 15, 1, 2] [2, 2] [2, 2] 1 1 rfl rfl rfl rfl

/-- Counterexample to claim C6 as stated: on the single-entry topology
`[5]` neither decoder fails — both return the empty parameter mapping
(there is no `InvalidTopology` check in the code). -/
theorem single_layer_topology_cex :
    gene_decoding (fun a b => a.headD 0 + b.headD 0) (List.replicate 5 (0 : ℚ)) [5] 1
        = some []
      ∧ direct_decoding (List.replicate 5 (0 : ℚ)) [5] = some [] := by
  exact ⟨rfl, rfl⟩

/-- Claim C6 amended: decoding a single-entry topology `[n]` does not
fail with an `InvalidTopology` error; the direct decoder returns the
empty parameter mapping for every genome, and the positional decoder
returns the empty parameter mapping for every genome of matching length
`n * d` (its only check is the length assertion). -/
theorem single_layer_topology_spec (n d : ℕ) (genome : List ℚ)
    (dist : List ℚ → List ℚ → ℚ) :
    direct_decoding genome [n] = some []
    ∧ (genome.length = n * d → gene_decoding dist genome [n] d = some []) := by
  constructor
  · rfl
  · intro h
    unfold gene_decoding
    rw [if_pos]
    · rfl
    · rw [h]
      simp [gene_enc_genome_size]

/-- Witness for C6 (amended) at `n = 5`, `d = 1`. -/
theorem single_layer_topology_spec_witness :
    direct_decoding (List.replicate 5 (1 : ℚ)) [5] = some []
      ∧ gene_decoding (fun a b => a.headD 0 * b.headD 0) (List.replicate 5 (1 : ℚ)) [5] 1
        = some [] :=
  ⟨(single_layer_topology_spec 5 1 (List.replicate 5 (1 : ℚ))
      (fun a b => a.headD 0 * b.headD 0)).1,
    (single_layer_topology_spec 5 1 (List.replicate 5 (1 : ℚ))
      (fun a b => a.headD 0 * b.headD 0)).2 (by decide)⟩

/-- Counterexample to claim C5 as stated: the direct decoder performs no
genome-length check — on topology `[1, 1]` (genome size 2) it silently
decodes a genome of length 3 to a result instead of failing. -/
theorem direct_length_contract_cex :
    ([1, 2, 3] : List ℚ).length ≠ direct_enc_genome_size [1, 1]
      ∧ direct_decoding ([1, 2, 3] : List ℚ) [1, 1]
        = some [("Dense_0", ⟨[[1]], [2]⟩)] := by
  exact ⟨by decide, rfl⟩

/-- Claim C5 amended: the positional (`gene`) decoder fails iff the genome
length differs from the computed genome size (and otherwise produces a
result), but the direct decoder performs no length check: for every valid
topology there is a genome of the wrong length that it silently decodes
to a result. -/
theorem length_contract_spec (layer_dims : List ℕ) (d : ℕ)
    (hL : 2 ≤ layer_dims.length) (hpos : ∀ n ∈ layer_dims, 0 < n) :
    (∀ (genome : List ℚ) (dist : List ℚ → List ℚ → ℚ),
        (gene_decoding dist genome layer_dims d).isSome
          ↔ genome.length = gene_enc_genome_size layer_dims d)
    ∧ ∃ genome : List ℚ, genome.length ≠ direct_enc_genome_size layer_dims
        ∧ (direct_decoding genome layer_dims).isSome := by
  have hne : layer_dims ≠ [] := by
    intro h
    rw [h] at hL
    simp at hL
  have hsum : 0 < layer_dims.sum := sum_pos_of_nonempty hne hpos
  constructor
  · intro genome dist
    constructor
    · intro hs
      by_contra hlen
      unfold gene_decoding at hs
      rw [if_neg hlen] at hs
      simp at hs
    · intro hlen
      rw [gene_decoding_eq_map dist genome layer_dims d hsum hlen]
      rfl
  · refine ⟨List.replicate (direct_enc_genome_size layer_dims + 1) 0, ?_, ?_⟩
    · simp
    · rw [direct_decoding_eq_map _ _ (by simp)]
      rfl

/-- Witness for C5 (amended) at topology `[2, 2]`, `d = 1`. -/
theorem length_contract_spec_witness :
    (gene_decoding (fun a b => a.headD 0 + b.headD 0) ([0, 5, 10, 15, 1, 2] : List ℚ) [2, 2]
        1).isSome
      ↔ ([0, 5, 10, 15, 1, 2] : List ℚ).length = gene_enc_genome_size [2, 2] 1 :=
  (length_contract_spec [2, 2] 1 (by decide) (by decide)).1 [0, 5, 10, 15, 1, 2]
    (fun a b => a.headD 0 + b.headD 0)

/-- Claim C10: for every valid topology and both decoders, the returned
mapping's keys are exactly the strings `Dense_0` through `Dense_(L-2)`,
in increasing transition order (each entry is a kernel/bias record by
construction of `DenseLayer`). -/
theorem dense_keys_spec {α : Type} (dist : List α → List α → α)
    (layer_dims : List ℕ) (d : ℕ) (genome_g genome_d : List α)
    (hL : 2 ≤ layer_dims.length) (hpos : ∀ n ∈ layer_dims, 0 < n)
    (hg : genome_g.length = gene_enc_genome_size layer_dims d)
    (hd : genome_d.length = direct_enc_genome_size layer_dims) :
    ∃ res_g res_d,
      gene_decoding dist genome_g layer_dims d = some res_g
      ∧ direct_decoding genome_d layer_dims = some res_d
      ∧ res_g.map Prod.fst
          = (List.range (layer_dims.length - 1)).map (fun i => "Dense_" ++ toString i)
      ∧ res_d.map Prod.fst
          = (List.range (layer_dims.length - 1)).map (fun i => "Dense_" ++ toString i) := by
  have hne : layer_dims ≠ [] := by
    intro h
    rw [h] at hL
    simp at hL
  have hsum : 0 < layer_dims.sum := sum_pos_of_nonempty hne hpos
  refine ⟨_, _, gene_decoding_eq_map dist genome_g layer_dims d hsum hg,
    direct_decoding_eq_map genome_d layer_dims (le_of_eq hd.symm), ?_, ?_⟩
  · rw [List.map_map]
    apply List.map_congr_left
    intro i _
    rfl
  · rw [List.map_map]
    apply List.map_congr_left
    intro i _
    rfl

/-- Claim C7: in both decoders the bias vector of transition `i` is read
from the bias block at offset `sum(layer_dims[1..i])` (the input layer is
excluded from bias bookkeeping) with length equal to the transition's
output layer size, and for the first transition the offset is `0`. -/
theorem bias_offset_spec {α : Type} (dist : List α → List α → α)
    (layer_dims : List ℕ) (d : ℕ) (genome_g genome_d : List α)
    (hL : 2 ≤ layer_dims.length) (hpos : ∀ n ∈ layer_dims, 0 < n)
    (hg : genome_g.length = gene_enc_genome_size layer_dims d)
    (hd : genome_d.length = direct_enc_genome_size layer_dims) :
    ∃ res_g res_d,
      gene_decoding dist genome_g layer_dims d = some res_g
      ∧ direct_decoding genome_d layer_dims = some res_d
      ∧ (∀ i, i < layer_dims.length - 1 →
          (res_g.getD i ("", ⟨[], []⟩)).2.bias
            = ((genome_g.drop (layer_dims.sum * d)).drop
                (∑ j ∈ Finset.range i, layer_dims.getD (j + 1) 0)).take
                (layer_dims.getD (i + 1) 0)
          ∧ (res_d.getD i ("", ⟨[], []⟩)).2.bias
            = ((genome_d.drop (directWeightCount layer_dims)).drop
                (∑ j ∈ Finset.range i, layer_dims.getD (j + 1) 0)).take
                (layer_dims.getD (i + 1) 0))
      ∧ (res_g.getD 0 ("", ⟨[], []⟩)).2.bias
          = (genome_g.drop (layer_dims.sum * d)).take (layer_dims.getD 1 0)
      ∧ (res_d.getD 0 ("", ⟨[], []⟩)).2.bias
          = (genome_d.drop (directWeightCount layer_dims)).take (layer_dims.getD 1 0) := by
  have hne : layer_dims ≠ [] := by
    intro h
    rw [h] at hL
    simp at hL
  have hsum : 0 < layer_dims.sum := sum_pos_of_nonempty hne hpos
  have hmain : ∀ i, i < layer_dims.length - 1 →
      (((List.range (layer_dims.length - 1)).map
          (geneEntry dist genome_g layer_dims d)).getD i ("", ⟨[], []⟩)).2.bias
        = ((genome_g.drop (layer_dims.sum * d)).drop
            (∑ j ∈ Finset.range i, layer_dims.getD (j + 1) 0)).take
            (layer_dims.getD (i + 1) 0)
      ∧ (((List.range (layer_dims.length - 1)).map
          (directEntry genome_d layer_dims)).getD i ("", ⟨[], []⟩)).2.bias
        = ((genome_d.drop (directWeightCount layer_dims)).drop
            (∑ j ∈ Finset.range i, layer_dims.getD (j + 1) 0)).take
            (layer_dims.getD (i + 1) 0) := by
    intro i hi
    rw [getD_range_map _ hi, getD_range_map _ hi, ← tail_take_sum_eq (le_of_lt hi)]
    exact ⟨rfl, rfl⟩
  have hzero : 0 < layer_dims.length - 1 := by omega
  refine ⟨_, _, gene_decoding_eq_map dist genome_g layer_dims d hsum hg,
    direct_decoding_eq_map genome_d layer_dims (le_of_eq hd.symm), hmain, ?_, ?_⟩
  · have h0 := (hmain 0 hzero).1
    simpa using h0
  · have h0 := (hmain 0 hzero).2
    simpa using h0

/-- Witness for C10 at topology `[2, 2]`, `d = 1`. -/
theorem dense_keys_spec_witness :
    ∃ res_g res_d,
      gene_decoding (fun a b => a.headD 0 + b.headD 0) ([0, 5, 10, 15, 1, 2] : List ℚ) [2, 2] 1
          = some res_g
      ∧ direct_decoding ([0, 5, 10, 15, 1, 2] : List ℚ) [2, 2] = some res_d
      ∧ res_g.map Prod.fst
          = (List.range (([2, 2] : List ℕ).length - 1)).map (fun i => "Dense_" ++ toString i)
      ∧ res_d.map Prod.fst
          = (List.range (([2, 2] : List ℕ).length - 1)).map (fun i => "Dense_" ++ toString i) :=
  dense_keys_spec (fun a b => a.headD 0 + b.headD 0) [2, 2] 1 [0, 5, 10, 15, 1, 2]
    [0, 5, 10, 15, 1, 2] (by decide) (by decide) (by decide) (by decide)

/-- Witness for C7 at topology `[2, 2]`, `d = 1`. -/
theorem bias_offset_spec_witness :
    ∃ res_g res_d,
      gene_decoding (fun a b => a.headD 0 + b.headD 0) ([0, 5, 10, 15, 1, 2] : List ℚ) [2, 2] 1
          = some res_g
      ∧ direct_decoding ([3, 4, 5, 6, 7, 8] : List ℚ) [2, 2] = some res_d
      ∧ (∀ i, i < ([2, 2] : List ℕ).length - 1 →
          (res_g.getD i ("", ⟨[], []⟩)).2.bias
            = ((([0, 5, 10, 15, 1, 2] : List ℚ).drop (([2, 2] : List ℕ).sum * 1)).drop
                (∑ j ∈ Finset.range i, [2, 2].getD (j + 1) 0)).take ([2, 2].getD (i + 1) 0)
          ∧ (res_d.getD i ("", ⟨[], []⟩)).2.bias
            = ((([3, 4, 5, 6, 7, 8] : List ℚ).drop (directWeightCount [2, 2])).drop
                (∑ j ∈ Finset.range i, [2, 2].getD (j + 1) 0)).take ([2, 2].getD (i + 1) 0))
      ∧ (res_g.getD 0 ("", ⟨[], []⟩)).2.bias
          = (([0, 5, 10, 15, 1, 2] : List ℚ).drop (([2, 2] : List ℕ).sum * 1)).take
              ([2, 2].getD 1 0)
      ∧ (res_d.getD 0 ("", ⟨[], []⟩)).2.bias
          = (([3, 4, 5, 6, 7, 8] : List ℚ).drop (directWeightCount [2, 2])).take
              ([2, 2].getD 1 0) :=
  bias_offset_spec (fun a b => a.headD 0 + b.headD 0) [2, 2] 1 [0, 5, 10, 15, 1, 2]
    [3, 4, 5, 6, 7, 8] (by decide) (by decide) (by decide) (by decide)

/-- Claim C8: for every valid topology of length `L ≥ 2`, correctly sized
genomes, and both encoding schemes, the decoded result has exactly
`L - 1` layer entries, and entry `i` has a weight matrix of shape
`(layer_in, layer_out)` and a bias vector of length `layer_out`. -/
theorem decode_shapes_spec {α : Type} (dist : List α → List α → α)
    (layer_dims : List ℕ) (d : ℕ) (genome_g genome_d : List α)
    (hL : 2 ≤ layer_dims.length) (hpos : ∀ n ∈ layer_dims, 0 < n)
    (hg : genome_g.length = gene_enc_genome_size layer_dims d)
    (hd : genome_d.length = direct_enc_genome_size layer_dims) :
    ∃ res_g res_d,
      gene_decoding dist genome_g layer_dims d = some res_g
      ∧ direct_decoding genome_d layer_dims = some res_d
      ∧ res_g.length = layer_dims.length - 1
      ∧ res_d.length = layer_dims.length - 1
      ∧ ∀ i, i < layer_dims.length - 1 →
          (res_g.getD i ("", ⟨[], []⟩)).2.kernel.length = layer_dims.getD i 0
          ∧ (∀ row ∈ (res_g.getD i ("", ⟨[], []⟩)).2.kernel,
              row.length = layer_dims.getD (i + 1) 0)
          ∧ (res_g.getD i ("", ⟨[], []⟩)).2.bias.length = layer_dims.getD (i + 1) 0
          ∧ (res_d.getD i ("", ⟨[], []⟩)).2.kernel.length = layer_dims.getD i 0
          ∧ (∀ row ∈ (res_d.getD i ("", ⟨[], []⟩)).2.kernel,
              row.length = layer_dims.getD (i + 1) 0)
          ∧ (res_d.getD i ("", ⟨[], []⟩)).2.bias.length = layer_dims.getD (i + 1) 0 := by
  have hne : layer_dims ≠ [] := by
    intro h
    rw [h] at hL
    simp at hL
  have hsum : 0 < layer_dims.sum := sum_pos_of_nonempty hne hpos
  have hglen : genome_g.length = layer_dims.sum * d + layer_dims.tail.sum := by
    rw [hg, gene_size_eq]
  have hdlen : genome_d.length = directWeightCount layer_dims + layer_dims.tail.sum := by
    rw [hd, direct_size_eq]
  refine ⟨_, _, gene_decoding_eq_map dist genome_g layer_dims d hsum hg,
    direct_decoding_eq_map genome_d layer_dims (le_of_eq hd.symm), by simp, by simp, ?_⟩
  intro i hi
  have htl : i < layer_dims.tail.length := by simpa using hi
  have hbias_le : (layer_dims.tail.take i).sum + layer_dims.getD (i + 1) 0
      ≤ layer_dims.tail.sum := by
    rw [← getD_tail hi, ← sum_take_succ_getD htl]
    exact sum_take_le_sum _ _
  rw [getD_range_map _ hi, getD_range_map _ hi]
  unfold geneEntry directEntry
  have hzl : i < (List.zipWith (fun a b => a * b) layer_dims.dropLast layer_dims.tail).length := by
    rw [zipWith_mul_length]
    exact hi
  have hwoff : ((List.zipWith (fun a b => a * b) layer_dims.dropLast layer_dims.tail).take i).sum
      + layer_dims.getD i 0 * layer_dims.getD (i + 1) 0
      ≤ directWeightCount layer_dims := by
    rw [← zipWith_mul_getD hi, ← sum_take_succ_getD hzl]
    exact sum_take_le_sum _ _
  have hslice_len :
      ((((genome_d.take (directWeightCount layer_dims)).drop
          ((List.zipWith (fun a b => a * b) layer_dims.dropLast layer_dims.tail).take i).sum)).take
        (layer_dims.getD i 0 * layer_dims.getD (i + 1) 0)).length
      = layer_dims.getD i 0 * layer_dims.getD (i + 1) 0 := by
    simp only [List.length_take, List.length_drop]
    omega
  refine ⟨by simp, ?_, ?_, by simp [reshape2], ?_, ?_⟩
  · intro row hrow
    simp only [List.mem_map, List.mem_range] at hrow
    obtain ⟨s, _, hs⟩ := hrow
    simp [← hs]
  · simp only [List.length_take, List.length_drop]
    omega
  · intro row hrow
    simp only [reshape2, List.mem_map, List.mem_range] at hrow
    obtain ⟨r, hrlt, hs⟩ := hrow
    have hrow_le : r * layer_dims.getD (i + 1) 0 + layer_dims.getD (i + 1) 0
        ≤ layer_dims.getD i 0 * layer_dims.getD (i + 1) 0 := by
      have h1 : (r + 1) * layer_dims.getD (i + 1) 0
          ≤ layer_dims.getD i 0 * layer_dims.getD (i + 1) 0 :=
        Nat.mul_le_mul_right _ hrlt
      rwa [Nat.succ_mul] at h1
    rw [← hs, List.length_take, List.length_drop, hslice_len]
    omega
  · simp only [List.length_take, List.length_drop]
    omega

/-- Witness for C8 at topology `[2, 2]`, `d = 1`. -/
theorem decode_shapes_spec_witness :
    ∃ res_g res_d,
      gene_decoding (fun a b => a.headD 0 + b.headD 0) ([0, 5, 10, 15, 1, 2] : List ℚ) [2, 2] 1
          = some res_g
      ∧ direct_decoding ([3, 4, 5, 6, 7, 8] : List ℚ) [2, 2] = some res_d
      ∧ res_g.length = ([2, 2] : List ℕ).length - 1
      ∧ res_d.length = ([2, 2] : List ℕ).length - 1
      ∧ ∀ i, i < ([2, 2] : List ℕ).length - 1 →
          (res_g.getD i ("", ⟨[], []⟩)).2.kernel.length = [2, 2].getD i 0
          ∧ (∀ row ∈ (res_g.getD i ("", ⟨[], []⟩)).2.kernel,
              row.length = [2, 2].getD (i + 1) 0)
          ∧ (res_g.getD i ("", ⟨[], []⟩)).2.bias.length = [2, 2].getD (i + 1) 0
          ∧ (res_d.getD i ("", ⟨[], []⟩)).2.kernel.length = [2, 2].getD i 0
          ∧ (∀ row ∈ (res_d.getD i ("", ⟨[], []⟩)).2.kernel,
              row.length = [2, 2].getD (i + 1) 0)
          ∧ (res_d.getD i ("", ⟨[], []⟩)).2.bias.length = [2, 2].getD (i + 1) 0 :=
  decode_shapes_spec (fun a b => a.headD 0 + b.headD 0) [2, 2] 1 [0, 5, 10, 15, 1, 2]
    [3, 4, 5, 6, 7, 8] (by decide) (by decide) (by decide) (by decide)

/-- Claim C2: direct-encoding round trip — for every valid topology and
any weight matrices and bias vectors of the matching shapes, building a
genome by concatenating all weights (row-major per transition, in
transition order) followed by all biases (per transition, in order) and
applying the direct decoder reproduces exactly those weight matrices and
bias vectors. -/
theorem direct_round_trip {α : Type} (layer_dims : List ℕ)
    (ws : List (List (List α))) (bs : List (List α))
    (hL : 2 ≤ layer_dims.length) (hpos : ∀ n ∈ layer_dims, 0 < n)
    (hwlen : ws.length = layer_dims.length - 1)
    (hblen : bs.length = layer_dims.length - 1)
    (hrows : ∀ i, i < layer_dims.length - 1 → (ws.getD i []).length = layer_dims.getD i 0)
    (hcols : ∀ i, i < layer_dims.length - 1 →
        ∀ row ∈ ws.getD i [], row.length = layer_dims.getD (i + 1) 0)
    (hbias : ∀ i, i < layer_dims.length - 1 →
        (bs.getD i []).length = layer_dims.getD (i + 1) 0) :
    direct_decoding ((ws.map List.flatten).flatten ++ bs.flatten) layer_dims
      = some ((List.range (layer_dims.length - 1)).map fun i =>
          ("Dense_" ++ toString i, ⟨ws.getD i [], bs.getD i []⟩)) := by
  have hkey1 : (ws.map List.flatten).map List.length
      = List.zipWith (fun a b => a * b) layer_dims.dropLast layer_dims.tail := by
    apply List.ext_getElem
    · simp [hwlen, List.length_zipWith]
    · intro j h1 h2
      have hjw : j < ws.length := by simpa using h1
      have hj : j < layer_dims.length - 1 := by omega
      simp only [List.getElem_map]
      rw [List.getElem_zipWith, ← List.getD_eq_getElem ws [] hjw,
        flatten_uniform_length (ws.getD j []) (hcols j hj), hrows j hj,
        ← List.getD_eq_getElem layer_dims.dropLast 0 (by simpa using hj),
        ← List.getD_eq_getElem layer_dims.tail 0 (by simpa using hj),
        getD_dropLast hj, getD_tail hj]
  have hkey2 : bs.map List.length = layer_dims.tail := by
    apply List.ext_getElem
    · simp [hblen]
    · intro j h1 h2
      have hjb : j < bs.length := by simpa using h1
      have hj : j < layer_dims.length - 1 := by omega
      simp only [List.getElem_map]
      rw [← List.getD_eq_getElem bs [] hjb, hbias j hj, ← getD_tail hj,
        List.getD_eq_getElem layer_dims.tail 0 (by simpa using hj)]
  have hw : (ws.map List.flatten).flatten.length = directWeightCount layer_dims := by
    rw [List.length_flatten, hkey1]
    rfl
  have hb : bs.flatten.length = layer_dims.tail.sum := by
    rw [List.length_flatten, hkey2]
  have hlen : ((ws.map List.flatten).flatten ++ bs.flatten).length
      = direct_enc_genome_size layer_dims := by
    rw [List.length_append, hw, hb, direct_size_eq]
  rw [direct_decoding_eq_map _ _ (le_of_eq hlen.symm)]
  congr 1
  apply List.map_congr_left
  intro i hi
  have hi' : i < layer_dims.length - 1 := List.mem_range.mp hi
  have hiw : i < ws.length := by omega
  have hib : i < bs.length := by omega
  unfold directEntry
  have htake : ((ws.map List.flatten).flatten ++ bs.flatten).take (directWeightCount layer_dims)
      = (ws.map List.flatten).flatten := by
    rw [← hw]
    exact List.take_left _ _
  have hdrop : ((ws.map List.flatten).flatten ++ bs.flatten).drop (directWeightCount layer_dims)
      = bs.flatten := by
    rw [← hw]
    exact List.drop_left _ _
  rw [htake, hdrop]
  have hmapget : (ws.map List.flatten).getD i [] = (ws.getD i []).flatten := by
    rw [List.getD_eq_getElem _ _ (by simpa using hiw), List.getElem_map,
      ← List.getD_eq_getElem ws [] hiw]
  have hsz : layer_dims.getD i 0 * layer_dims.getD (i + 1) 0
      = ((ws.map List.flatten).getD i []).length := by
    rw [hmapget, flatten_uniform_length (ws.getD i []) (hcols i hi'), hrows i hi']
  have hweights :
      ((ws.map List.flatten).flatten.drop
          ((List.zipWith (fun a b => a * b) layer_dims.dropLast layer_dims.tail).take i).sum).take
        (layer_dims.getD i 0 * layer_dims.getD (i + 1) 0)
      = (ws.getD i []).flatten := by
    rw [← hkey1, hsz, flatten_slice (by simpa using hiw), hmapget]
  have hbvec :
      (bs.flatten.drop ((layer_dims.tail.take i).sum)).take (layer_dims.getD (i + 1) 0)
      = bs.getD i [] := by
    rw [← hkey2, ← hbias i hi', flatten_slice hib]
  rw [hweights, hbvec, ← hrows i hi',
    reshape2_flatten (ws.getD i []) (hcols i hi')]

/-- Witness for C2 at topology `[2, 2]` with concrete weights and biases. -/
theorem direct_round_trip_witness :
    direct_decoding
        (((([[ [10, 15], [5, 10] ]] : List (List (List ℚ))).map List.flatten).flatten)
          ++ ([[1, 2]] : List (List ℚ)).flatten) [2, 2]
      = some ((List.range (([2, 2] : List ℕ).length - 1)).map fun i =>
          ("Dense_" ++ toString i,
            ⟨([[ [10, 15], [5, 10] ]] : List (List (List ℚ))).getD i [],
              ([[1, 2]] : List (List ℚ)).getD i []⟩)) :=
  direct_round_trip [2, 2] [[ [10, 15], [5, 10] ]] [[1, 2]] (by decide) (by decide)
    (by decide) (by decide)
    (by intro i hi; have h0 : i = 0 := Nat.lt_one_iff.mp (by simpa using hi); subst h0; decide)
    (by intro i hi; have h0 : i = 0 := Nat.lt_one_iff.mp (by simpa using hi); subst h0; decide)
    (by intro i hi; have h0 : i = 0 := Nat.lt_one_iff.mp (by simpa using hi); subst h0; decide)

theorem L2_single (a b : ℝ) : L2 [a] [b] = |a - b| := by
  unfold L2
  simp [Real.sqrt_sq_eq_abs]

/-- Claim C1: for the positional decoder on topology `[2, 2]` with
`d = 1` and the `L2` distance, decoding the genome `[0, 5, 10, 15, 1, 2]`
yields a single transition whose weight matrix entry `(s, t)` is the
distance between the position windows of global neurons `s` and `2 + t`,
giving exactly the matrix `[[10, 15], [5, 10]]` and bias vector `[1, 2]`. -/
theorem gene_concrete_decode :
    gene_decoding L2 ([0, 5, 10, 15, 1, 2] : List ℝ) [2, 2] 1
      = some [("Dense_0", ⟨[[10, 15], [5, 10]], [1, 2]⟩)] := by
  rw [gene_decoding_eq_map L2 _ _ _ (by norm_num) (by norm_num [gene_enc_genome_size])]
  norm_num [geneEntry, genePosition, List.range_succ, L2_single]
  rfl

end GeneJax
